import Mathlib

/-!
Verification development for the maia-wrapper core (engine.py, server.py).

The numeric model runtime (ONNX), the chess move generator (python-chess)
and the identity service are external collaborators; they enter the
embedding as parameters (raw logits / value, the legal-move list, an
abstract auth function).  Floating-point arrays are embedded as exact
rationals; np.exp is an abstract parameter E so that its analytic
properties become explicit hypotheses.  Elementwise numpy array
operations are embedded as index functions over the vocabulary range.
-/

namespace Maia

/-- ELO bucketing from engine.py `_elo_to_category`:
if elo < 1100 return 0; if elo >= 2000 return 10;
return (elo - 1100) // 100 + 1  (Python // is floor division). -/
def eloToCategory (elo : Int) : Int :=
  if elo < 1100 then 0
  else if 2000 ≤ elo then 10
  else Int.fdiv (elo - 1100) 100 + 1

/-- Mirror a rank character, engine.py `_mirror_move.mirror_sq`:
str(9 - int(c)).  Defined here on the digit characters (Python int()
raises on anything else); value for a digit c is the digit 9 - c. -/
def mirrorRankChar (c : Char) : Char :=
  Char.ofNat (48 + (9 - (c.toNat - 48)))

/-- Mirror a UCI move string vertically, engine.py `_mirror_move`:
from = s[:2], to = s[2:4], promo = s[4:]; each square keeps its file and
gets rank 9 - r.  Strings shorter than 4 characters make the source
raise IndexError; the embedding leaves them unchanged (no claim touches
them). -/
def mirrorMove : List Char → List Char
  | c0 :: c1 :: c2 :: c3 :: rest =>
      c0 :: mirrorRankChar c1 :: c2 :: mirrorRankChar c3 :: rest
  | l => l

/-- A move string is well formed when it has a from-square and a
to-square whose rank characters are digits 1..8. -/
def validMove : List Char → Bool
  | _ :: c1 :: _ :: c3 :: _ =>
      (49 ≤ c1.toNat && c1.toNat ≤ 56) && (49 ≤ c3.toNat && c3.toNat ≤ 56)
  | _ => false

/-- First index of a move string in the vocabulary list (the
`move_to_idx` dict of `MaiaEngine.__init__`, whose entries are unique by
the vocabulary invariant). -/
def lookupIdx (vocab : List (List Char)) (m : List Char) : Option Nat :=
  match vocab with
  | [] => none
  | v :: vs => if v = m then some 0 else (lookupIdx vs m).map (· + 1)

/-- Sentinel used for masked (illegal) logits in `MaiaEngine.predict`:
np.where(legal_mask > 0, logits, -1e9). -/
def sentinel : ℚ := -(10 ^ 9)

/-- Maximum of a list of rationals (np.max over a nonempty array). -/
def listMax : List ℚ → ℚ
  | [] => 0
  | x :: xs => xs.foldl max x

/-- Indices of the mirrored legal moves that are present in the
vocabulary, in legal-move enumeration order. -/
def legalIdxList (vocab legalMirrored : List (List Char)) : List Nat :=
  legalMirrored.filterMap (lookupIdx vocab)

/-- Entry i of the masked logits array:
np.where(legal_mask > 0, logits_maia, -1e9). -/
def maskedLogit (vocab legalMirrored : List (List Char)) (logits : List ℚ)
    (i : Nat) : ℚ :=
  if i ∈ legalIdxList vocab legalMirrored then logits.getD i 0 else sentinel

/-- Maximum entry of the masked logits array (np.max in `_softmax`). -/
def maskedMax (vocab legalMirrored : List (List Char)) (logits : List ℚ) : ℚ :=
  listMax ((List.range vocab.length).map (maskedLogit vocab legalMirrored logits))

/-- Denominator of the numerically stable softmax in `_softmax`:
e = np.exp(x - np.max(x)); e.sum().  E stands for np.exp. -/
def expSum (vocab legalMirrored : List (List Char)) (E : ℚ → ℚ)
    (logits : List ℚ) : ℚ :=
  ∑ i ∈ Finset.range vocab.length,
    E (maskedLogit vocab legalMirrored logits i -
       maskedMax vocab legalMirrored logits)

/-- Entry i of the softmax output in `_softmax`: e / e.sum(). -/
def probOf (vocab legalMirrored : List (List Char)) (E : ℚ → ℚ)
    (logits : List ℚ) (i : Nat) : ℚ :=
  E (maskedLogit vocab legalMirrored logits i -
     maskedMax vocab legalMirrored logits) /
    expSum vocab legalMirrored E logits

/-- Sum of the softmax probabilities over the legal-move index set: the
probability mass the decoder assigns to the full legal-move set before
rounding and truncation. -/
def legalMass (vocab legalMirrored : List (List Char)) (E : ℚ → ℚ)
    (logits : List ℚ) : ℚ :=
  ((legalIdxList vocab legalMirrored).map (probOf vocab legalMirrored E logits)).sum

/-- Round a rational to the nearest integer, ties to even: the rounding
mode of Python round(). -/
def rne (q : ℚ) : Int :=
  if q - ⌊q⌋ < 1 / 2 then ⌊q⌋
  else if 1 / 2 < q - ⌊q⌋ then ⌊q⌋ + 1
  else if Even (⌊q⌋ : Int) then ⌊q⌋ else ⌊q⌋ + 1

/-- Python round(x, 4): nearest multiple of 10^-4, ties to even. -/
def round4 (q : ℚ) : ℚ := (rne (q * 10000) : ℚ) / 10000

/-- np.clip(x, 0, 1). -/
def clip01 (q : ℚ) : ℚ := min 1 (max 0 q)

/-- One entry of the decoded move list: a move string in the true
orientation together with its rounded probability. -/
structure MoveProb where
  move : List Char
  probability : ℚ
deriving DecidableEq

/-- Insert into a descending-sorted list, after every element of
greater-or-equal probability that is already there. -/
def insertDesc (x : MoveProb) : List MoveProb → List MoveProb
  | [] => [x]
  | y :: ys =>
      if y.probability ≤ x.probability then x :: y :: ys
      else y :: insertDesc x ys

/-- Stable sort by probability descending: the extensional behaviour of
Python list.sort(key=probability, reverse=True), which is stable. -/
def sortDesc (l : List MoveProb) : List MoveProb := l.foldr insertDesc []

/-- Python list slicing l[:n] for an arbitrary integer n: a nonnegative
n keeps the first n elements, a negative n drops the last |n|. -/
def pySlice {α : Type} (n : Int) (l : List α) : List α :=
  if 0 ≤ n then l.take n.toNat else l.take (l.length - n.natAbs)

/-- Legal moves in the canonical (model) orientation, engine.py
predict: mirrored when black is to move. -/
def mirroredLegal (legalMovesUci : List (List Char)) (isBlack : Bool) :
    List (List Char) :=
  if isBlack then legalMovesUci.map mirrorMove else legalMovesUci

/-- The decoded move list before sorting, in legal-move enumeration
order: legal moves absent from the vocabulary are skipped, each kept
move is un-mirrored back to the true orientation and paired with its
rounded softmax probability. -/
def moveProbsList (vocab : List (List Char)) (E : ℚ → ℚ) (logits : List ℚ)
    (legalMovesUci : List (List Char)) (isBlack : Bool) : List MoveProb :=
  (mirroredLegal legalMovesUci isBlack).filterMap (fun m =>
    (lookupIdx vocab m).map (fun idx =>
      { move := if isBlack then mirrorMove m else m
        probability :=
          round4 (probOf vocab (mirroredLegal legalMovesUci isBlack) E logits idx) }))

/-- Result of `MaiaEngine.predict`. -/
structure PredictResult where
  moves : List MoveProb
  win_prob : ℚ
deriving DecidableEq

/-- Shallow embedding of `MaiaEngine.predict`.  The ONNX runtime is the
external collaborator: its two outputs for the (canonically oriented)
position enter as the parameters logits and value; np.exp enters as E;
the legal-move list of the true position comes from the external chess
library. -/
def predictCore (vocab : List (List Char)) (E : ℚ → ℚ) (logits : List ℚ)
    (value : ℚ) (legalMovesUci : List (List Char)) (isBlack : Bool)
    (topN : Int) : PredictResult :=
  let sorted := sortDesc (moveProbsList vocab E logits legalMovesUci isBlack)
  let winProbWhite := clip01 (value / 2 + 1 / 2)
  let winProb := if isBlack then 1 - winProbWhite else winProbWhite
  { moves := pySlice topN sorted
    win_prob := round4 winProb }

/-- Parsed fields of an analyze message (server.py `_handle_analyze`):
every field is read with dict.get, so each is optional. -/
structure AnalyzeMsg where
  requestId : Option String
  fen : Option String
  elo_self : Option Int
  elo_oppo : Option Int
  top_n : Option Int
deriving DecidableEq

/-- Session record held by the process (auth.py / main.py); the server
reads only the plan and email fields, each with dict.get. -/
structure Session where
  email : Option String
  plan : Option String
deriving DecidableEq

/-- A message that parsed to a JSON object, routed by its type tag in
`MaiaServer._process`. -/
inductive Msg
  | ping
  | getAuth
  | loginWithToken (accessToken refreshToken : String)
  | analyze (a : AnalyzeMsg)
  | unknown (tag : Option String)
deriving DecidableEq

/-- The requestId field of a parsed message, as read by the except
handler in `_handle_client` (only analyze messages carry one). -/
def Msg.requestIdField : Msg → Option String
  | .analyze a => a.requestId
  | _ => none

/-- Outbound replies of `MaiaServer`.  In errorReply the outer Option
distinguishes a reply without a requestId field (none) from one whose
requestId field is present but null (some none). -/
inductive Reply
  | pong
  | authStatusIn (email plan : String)
  | authStatusOut (error : Option String)
  | authRequired (requestId : Option String)
  | upgradeRequired (requestId : Option String)
  | analysisResult (requestId : String) (result : PredictResult) (fen : String)
  | errorReply (message : String) (requestId : Option (Option String))
deriving DecidableEq

/-- The engine pipeline as the dispatcher sees it: fen, elo_self,
elo_oppo, top_n to a result, or a raised failure. -/
def EngineFn : Type := String → Int → Int → Int → Except String PredictResult

/-- The external token-login collaborator (auth.login_with_token). -/
def AuthFn : Type := String → String → Except String Session

/-- Embedding of `MaiaServer._handle_analyze`.  The Bool records
whether the engine pipeline was invoked.  Python `if not fen` treats
both a missing field and an empty string as absent; the validation
error carries no requestId field.  A failure raised by the engine
propagates (Except.error). -/
def handleAnalyze (engine : EngineFn) (a : AnalyzeMsg) :
    Except String (Reply × Bool) :=
  match a.fen with
  | none => .ok (.errorReply "Missing 'fen' field" none, false)
  | some f =>
      if f = "" then .ok (.errorReply "Missing 'fen' field" none, false)
      else
        match engine f (a.elo_self.getD 1500) (a.elo_oppo.getD 1500)
            (a.top_n.getD 5) with
        | .error e => .error e
        | .ok res => .ok (.analysisResult (a.requestId.getD "?") res f, true)

/-- Embedding of `MaiaServer._handle_get_auth`: dict.get defaults are
"" for email and "free" for plan. -/
def handleGetAuth (session : Option Session) : Reply :=
  match session with
  | some s => .authStatusIn (s.email.getD "") (s.plan.getD "free")
  | none => .authStatusOut none

/-- Embedding of `MaiaServer._handle_login_with_token`. -/
def handleLoginWithToken (authFn : AuthFn) (accessToken refreshToken : String) :
    Reply :=
  if accessToken = "" then .authStatusOut (some "Missing token")
  else
    match authFn accessToken refreshToken with
    | .ok s => .authStatusIn (s.email.getD "") (s.plan.getD "free")
    | .error e => .authStatusOut (some e)

/-- Embedding of `MaiaServer._process`: route by type tag; analyze is
gated on the session (absent session, then plan "free" with dict.get
default "free").  The Bool records whether the engine pipeline was
invoked. -/
def process (session : Option Session) (authFn : AuthFn) (engine : EngineFn) :
    Msg → Except String (Reply × Bool)
  | .ping => .ok (.pong, false)
  | .getAuth => .ok (handleGetAuth session, false)
  | .loginWithToken at' rt => .ok (handleLoginWithToken authFn at' rt, false)
  | .analyze a =>
      match session with
      | none => .ok (.authRequired a.requestId, false)
      | some s =>
          if s.plan.getD "free" = "free" then
            .ok (.upgradeRequired a.requestId, false)
          else handleAnalyze engine a
  | .unknown tag =>
      .ok (.errorReply ("Unknown message type: " ++ tag.getD "None") none, false)

/-- One inbound frame as `_handle_client` sees it: text that fails
json.loads, text that parses to a JSON object, or text that parses to a
non-object JSON value (number, list, string, ...). -/
inductive RawMsg
  | invalid
  | jdict (m : Msg)
  | jnondict
deriving DecidableEq

/-- Embedding of the `_handle_client` receive loop: replies sent for a
list of inbound frames.  Unparseable text gets the Invalid JSON error;
a raised failure while processing a parsed object is converted to an
error reply echoing the requestId field, and the loop continues.  A
frame that parses to a non-object makes `_process` raise
AttributeError on msg.get, and the except handler itself then raises
AttributeError again on msg.get("requestId"): the exception escapes
the loop, no reply is sent for that frame, and the handler terminates,
leaving every later frame unprocessed. -/
def handleClient (session : Option Session) (authFn : AuthFn)
    (engine : EngineFn) : List RawMsg → List Reply
  | [] => []
  | .invalid :: rest =>
      .errorReply "Invalid JSON" none :: handleClient session authFn engine rest
  | .jnondict :: _ => []
  | .jdict m :: rest =>
      (match process session authFn engine m with
       | .ok (r, _) => r
       | .error e => .errorReply e (some m.requestIdField)) ::
        handleClient session authFn engine rest

/-! Helper lemmas about rounding. -/

theorem rne_ge (q : ℚ) : q - 1 / 2 ≤ (rne q : ℚ) := by
  have h0 : (⌊q⌋ : ℚ) ≤ q := Int.floor_le q
  have h1 : q < (⌊q⌋ : ℚ) + 1 := Int.lt_floor_add_one q
  unfold rne
  split_ifs with hlt hgt hev <;> push_cast <;> linarith

theorem rne_le (q : ℚ) : (rne q : ℚ) ≤ q + 1 / 2 := by
  have h0 : (⌊q⌋ : ℚ) ≤ q := Int.floor_le q
  have h1 : q < (⌊q⌋ : ℚ) + 1 := Int.lt_floor_add_one q
  unfold rne
  split_ifs with hlt hgt hev <;> push_cast <;> linarith

theorem round4_ge (q : ℚ) : q - 1 / 20000 ≤ round4 q := by
  have h := rne_ge (q * 10000)
  unfold round4
  linarith

theorem round4_le (q : ℚ) : round4 q ≤ q + 1 / 20000 := by
  have h := rne_le (q * 10000)
  unfold round4
  linarith

theorem round4_nonneg {q : ℚ} (h : 0 ≤ q) : 0 ≤ round4 q := by
  have h1 : q * 10000 - 1 / 2 ≤ (rne (q * 10000) : ℚ) := rne_ge _
  have h2 : ((-1 : Int) : ℚ) < (rne (q * 10000) : ℚ) := by push_cast; nlinarith
  have h3 : (0 : Int) ≤ rne (q * 10000) := by
    have hc : (-1 : Int) < rne (q * 10000) := by exact_mod_cast h2
    omega
  unfold round4
  have h4 : (0 : ℚ) ≤ (rne (q * 10000) : ℚ) := by exact_mod_cast h3
  positivity

theorem round4_le_one {q : ℚ} (h : q ≤ 1) : round4 q ≤ 1 := by
  have h1 : (rne (q * 10000) : ℚ) ≤ q * 10000 + 1 / 2 := rne_le _
  have h2 : (rne (q * 10000) : ℚ) < ((10001 : Int) : ℚ) := by push_cast; nlinarith
  have h3 : rne (q * 10000) ≤ (10000 : Int) := by
    have hc : rne (q * 10000) < (10001 : Int) := by exact_mod_cast h2
    omega
  unfold round4
  rw [div_le_one (by norm_num)]
  exact_mod_cast h3

/-! Helper lemmas about listMax. -/

theorem foldl_max_le_arg (l : List ℚ) (a : ℚ) : a ≤ l.foldl max a := by
  induction l generalizing a with
  | nil => exact le_refl a
  | cons x xs ih => exact le_trans (le_max_left a x) (ih (max a x))

theorem foldl_max_le_mem (l : List ℚ) (a x : ℚ) (hx : x ∈ l) :
    x ≤ l.foldl max a := by
  induction l generalizing a with
  | nil => cases hx
  | cons y ys ih =>
      rcases List.mem_cons.mp hx with h | h
      · subst h
        exact le_trans (le_max_right a x) (foldl_max_le_arg ys (max a x))
      · exact ih (max a y) h

theorem foldl_max_mem (l : List ℚ) (a : ℚ) :
    l.foldl max a = a ∨ l.foldl max a ∈ l := by
  induction l generalizing a with
  | nil => exact Or.inl rfl
  | cons x xs ih =>
      rw [List.foldl_cons]
      rcases ih (max a x) with h | h
      · rcases max_choice a x with hm | hm
        · exact Or.inl (h.trans hm)
        · exact Or.inr (by rw [h, hm]; exact List.mem_cons_self x xs)
      · exact Or.inr (List.mem_cons_of_mem x h)

theorem le_listMax {l : List ℚ} {x : ℚ} (hx : x ∈ l) : x ≤ listMax l := by
  cases l with
  | nil => cases hx
  | cons y ys =>
      rcases List.mem_cons.mp hx with h | h
      · subst h; exact foldl_max_le_arg ys x
      · exact foldl_max_le_mem ys y x h

theorem listMax_mem {l : List ℚ} (h : l ≠ []) : listMax l ∈ l := by
  cases l with
  | nil => exact absurd rfl h
  | cons y ys =>
      rcases foldl_max_mem ys y with hm | hm
      · simp only [listMax]
        rw [hm]
        exact List.mem_cons_self y ys
      · simp only [listMax]
        exact List.mem_cons_of_mem _ hm

/-! Helper lemmas about lookupIdx. -/

theorem lookupIdx_lt_length {vocab : List (List Char)} {m : List Char} {i : Nat}
    (h : lookupIdx vocab m = some i) : i < vocab.length := by
  induction vocab generalizing i with
  | nil => simp [lookupIdx] at h
  | cons v vs ih =>
      rw [lookupIdx] at h
      by_cases hv : v = m
      · rw [if_pos hv] at h
        cases h
        simp
      · rw [if_neg hv] at h
        rcases Option.map_eq_some'.mp h with ⟨j, hj, hji⟩
        subst hji
        have := ih hj
        simp only [List.length_cons]
        omega

theorem lookupIdx_getD {vocab : List (List Char)} {m : List Char} {i : Nat}
    (h : lookupIdx vocab m = some i) : vocab.getD i [] = m := by
  induction vocab generalizing i with
  | nil => simp [lookupIdx] at h
  | cons v vs ih =>
      rw [lookupIdx] at h
      by_cases hv : v = m
      · rw [if_pos hv] at h
        cases h
        simpa using hv
      · rw [if_neg hv] at h
        rcases Option.map_eq_some'.mp h with ⟨j, hj, hji⟩
        subst hji
        simpa using ih hj

theorem lookupIdx_inj {vocab : List (List Char)} {m m' : List Char} {i : Nat}
    (h : lookupIdx vocab m = some i) (h' : lookupIdx vocab m' = some i) :
    m = m' := by
  rw [← lookupIdx_getD h, ← lookupIdx_getD h']

theorem legalIdxList_nodup {vocab legalMirrored : List (List Char)}
    (h : legalMirrored.Nodup) : (legalIdxList vocab legalMirrored).Nodup :=
  List.Nodup.filterMap
    (fun _ _ _ hb hb' => lookupIdx_inj (Option.mem_def.mp hb) (Option.mem_def.mp hb')) h

theorem legalIdxList_mem_lt {vocab legalMirrored : List (List Char)} {i : Nat}
    (h : i ∈ legalIdxList vocab legalMirrored) : i < vocab.length := by
  rcases List.mem_filterMap.mp h with ⟨m, _, hm⟩
  exact lookupIdx_lt_length hm

/-! Helper lemmas about the masked softmax distribution. -/

theorem maskedLogit_le_max {vocab legalMirrored : List (List Char)}
    {logits : List ℚ} {i : Nat} (hi : i < vocab.length) :
    maskedLogit vocab legalMirrored logits i ≤ maskedMax vocab legalMirrored logits :=
  le_listMax (List.mem_map.mpr ⟨i, List.mem_range.mpr hi, rfl⟩)

theorem maskedMax_attained {vocab legalMirrored : List (List Char)}
    {logits : List ℚ} (h : vocab ≠ []) :
    ∃ j, j < vocab.length ∧
      maskedMax vocab legalMirrored logits = maskedLogit vocab legalMirrored logits j := by
  have hlen : vocab.length ≠ 0 := fun h0 => h (List.length_eq_zero.mp h0)
  have hne : (List.range vocab.length).map (maskedLogit vocab legalMirrored logits) ≠ [] := by
    intro h0
    rcases List.map_eq_nil_iff.mp h0 with h1
    exact hlen (by simpa [List.range_eq_nil] using h1)
  rcases List.mem_map.mp (listMax_mem hne) with ⟨j, hj, hval⟩
  exact ⟨j, List.mem_range.mp hj, hval.symm⟩

theorem expSum_pos {vocab legalMirrored : List (List Char)} {E : ℚ → ℚ}
    {logits : List ℚ} (hpos : ∀ x, 0 < E x) (hv : vocab ≠ []) :
    0 < expSum vocab legalMirrored E logits := by
  apply Finset.sum_pos (fun i _ => hpos _)
  exact Finset.nonempty_range_iff.mpr (fun h0 => hv (List.length_eq_zero.mp h0))

theorem probOf_nonneg {vocab legalMirrored : List (List Char)} {E : ℚ → ℚ}
    {logits : List ℚ} (hpos : ∀ x, 0 < E x) (hv : vocab ≠ []) (i : Nat) :
    0 ≤ probOf vocab legalMirrored E logits i :=
  le_of_lt (div_pos (hpos _) (expSum_pos hpos hv))

theorem sum_probOf {vocab legalMirrored : List (List Char)} {E : ℚ → ℚ}
    {logits : List ℚ} (hpos : ∀ x, 0 < E x) (hv : vocab ≠ []) :
    ∑ i ∈ Finset.range vocab.length, probOf vocab legalMirrored E logits i = 1 := by
  unfold probOf
  rw [← Finset.sum_div]
  exact div_self (ne_of_gt (expSum_pos hpos hv))

theorem legalIdxList_toFinset_subset {vocab legalMirrored : List (List Char)} :
    (legalIdxList vocab legalMirrored).toFinset ⊆ Finset.range vocab.length :=
  fun _ hi => Finset.mem_range.mpr (legalIdxList_mem_lt (List.mem_toFinset.mp hi))

theorem legalMass_eq_finset_sum {vocab legalMirrored : List (List Char)}
    {E : ℚ → ℚ} {logits : List ℚ} (hnd : legalMirrored.Nodup) :
    legalMass vocab legalMirrored E logits =
      ∑ i ∈ (legalIdxList vocab legalMirrored).toFinset,
        probOf vocab legalMirrored E logits i :=
  (List.sum_toFinset _ (legalIdxList_nodup hnd)).symm

theorem legalMass_le_one {vocab legalMirrored : List (List Char)} {E : ℚ → ℚ}
    {logits : List ℚ} (hpos : ∀ x, 0 < E x) (hv : vocab ≠ [])
    (hnd : legalMirrored.Nodup) :
    legalMass vocab legalMirrored E logits ≤ 1 := by
  rw [legalMass_eq_finset_sum hnd, ← sum_probOf hpos hv]
  exact Finset.sum_le_sum_of_subset_of_nonneg legalIdxList_toFinset_subset
    (fun i _ _ => probOf_nonneg hpos hv i)

theorem probOf_masked_le {vocab legalMirrored : List (List Char)} {E : ℚ → ℚ}
    {logits : List ℚ} {i : Nat}
    (hpos : ∀ x, 0 < E x)
    (hsmall : ∀ x : ℚ, x ≤ -(9 * 10 ^ 8) → E x ≤ E 0 / 10 ^ 12)
    (hlog : ∀ x ∈ logits, -(10 ^ 8) ≤ x)
    (hlen : logits.length = vocab.length)
    (hne : legalIdxList vocab legalMirrored ≠ [])
    (hnotin : i ∉ legalIdxList vocab legalMirrored) :
    probOf vocab legalMirrored E logits i ≤ 1 / 10 ^ 12 := by
  rcases List.exists_mem_of_ne_nil _ hne with ⟨i0, hi0⟩
  have hi0lt : i0 < vocab.length := legalIdxList_mem_lt hi0
  have hv : vocab ≠ [] := by
    intro h0
    rw [h0] at hi0lt
    simp at hi0lt
  have hMge : -(10 ^ 8) ≤ maskedMax vocab legalMirrored logits := by
    have hmask : maskedLogit vocab legalMirrored logits i0 = logits.getD i0 0 := by
      unfold maskedLogit
      rw [if_pos hi0]
    have hmem : logits.getD i0 0 ∈ logits := by
      rw [List.getD_eq_getElem _ _ (hlen ▸ hi0lt)]
      exact List.getElem_mem _
    have h1 := hlog _ hmem
    have h2 := @maskedLogit_le_max vocab legalMirrored logits i0 hi0lt
    rw [hmask] at h2
    linarith
  have hmaski : maskedLogit vocab legalMirrored logits i = sentinel := by
    unfold maskedLogit
    rw [if_neg hnotin]
  have hZ : E 0 ≤ expSum vocab legalMirrored E logits := by
    rcases @maskedMax_attained vocab legalMirrored logits hv with
      ⟨j, hjlt, hjeq⟩
    have hterm : E (maskedLogit vocab legalMirrored logits j -
        maskedMax vocab legalMirrored logits) = E 0 := by
      rw [← hjeq]
      norm_num
    calc E 0 = E (maskedLogit vocab legalMirrored logits j -
          maskedMax vocab legalMirrored logits) := hterm.symm
      _ ≤ expSum vocab legalMirrored E logits :=
          Finset.single_le_sum (fun k _ => le_of_lt (hpos _))
            (Finset.mem_range.mpr hjlt)
  have hEsmall : E (maskedLogit vocab legalMirrored logits i -
      maskedMax vocab legalMirrored logits) ≤ E 0 / 10 ^ 12 := by
    apply hsmall
    rw [hmaski]
    unfold sentinel
    linarith
  have hZpos := @expSum_pos vocab legalMirrored E logits hpos hv
  unfold probOf
  rw [div_le_div_iff₀ hZpos (by norm_num : (0 : ℚ) < 10 ^ 12)]
  have hE0 := hpos 0
  nlinarith

theorem legalMass_ge {vocab legalMirrored : List (List Char)} {E : ℚ → ℚ}
    {logits : List ℚ}
    (hpos : ∀ x, 0 < E x)
    (hsmall : ∀ x : ℚ, x ≤ -(9 * 10 ^ 8) → E x ≤ E 0 / 10 ^ 12)
    (hlog : ∀ x ∈ logits, -(10 ^ 8) ≤ x)
    (hlen : logits.length = vocab.length)
    (hnd : legalMirrored.Nodup)
    (hne : legalIdxList vocab legalMirrored ≠ []) :
    1 - (vocab.length : ℚ) / 10 ^ 12 ≤ legalMass vocab legalMirrored E logits := by
  rcases List.exists_mem_of_ne_nil _ hne with ⟨i0, hi0⟩
  have hv : vocab ≠ [] := by
    have := legalIdxList_mem_lt hi0
    intro h0
    rw [h0] at this
    simp at this
  have hsplit : (∑ i ∈ Finset.range vocab.length \
        (legalIdxList vocab legalMirrored).toFinset,
        probOf vocab legalMirrored E logits i) +
      ∑ i ∈ (legalIdxList vocab legalMirrored).toFinset,
        probOf vocab legalMirrored E logits i =
      ∑ i ∈ Finset.range vocab.length, probOf vocab legalMirrored E logits i :=
    Finset.sum_sdiff legalIdxList_toFinset_subset
  rw [sum_probOf hpos hv] at hsplit
  rw [legalMass_eq_finset_sum hnd]
  have hbound : ∑ i ∈ Finset.range vocab.length \
      (legalIdxList vocab legalMirrored).toFinset,
      probOf vocab legalMirrored E logits i ≤ (vocab.length : ℚ) / 10 ^ 12 := by
    have h1 : ∀ i ∈ Finset.range vocab.length \
        (legalIdxList vocab legalMirrored).toFinset,
        probOf vocab legalMirrored E logits i ≤ 1 / 10 ^ 12 := by
      intro i hi
      rcases Finset.mem_sdiff.mp hi with ⟨_, hnotin⟩
      exact probOf_masked_le hpos hsmall hlog hlen hne
        (fun hmem => hnotin (List.mem_toFinset.mpr hmem))
    calc ∑ i ∈ Finset.range vocab.length \
          (legalIdxList vocab legalMirrored).toFinset,
          probOf vocab legalMirrored E logits i
        ≤ (Finset.range vocab.length \
            (legalIdxList vocab legalMirrored).toFinset).card • ((1 : ℚ) / 10 ^ 12) :=
          Finset.sum_le_card_nsmul _ _ _ h1
      _ ≤ (vocab.length : ℚ) / 10 ^ 12 := by
          rw [nsmul_eq_mul]
          have hcard : (Finset.range vocab.length \
              (legalIdxList vocab legalMirrored).toFinset).card ≤ vocab.length := by
            calc (Finset.range vocab.length \
                (legalIdxList vocab legalMirrored).toFinset).card
                ≤ (Finset.range vocab.length).card :=
                  Finset.card_le_card (Finset.sdiff_subset)
              _ = vocab.length := Finset.card_range _
          have : ((Finset.range vocab.length \
              (legalIdxList vocab legalMirrored).toFinset).card : ℚ) ≤
              (vocab.length : ℚ) := by exact_mod_cast hcard
          linarith
  linarith

/-! Helper lemmas about the stable descending sort. -/

theorem insertDesc_perm (x : MoveProb) (l : List MoveProb) :
    (insertDesc x l).Perm (x :: l) := by
  induction l with
  | nil => exact List.Perm.refl _
  | cons y ys ih =>
      rw [insertDesc]
      split_ifs with h
      · exact List.Perm.refl _
      · exact (List.Perm.cons y ih).trans (List.Perm.swap x y ys)

theorem sortDesc_perm (l : List MoveProb) : (sortDesc l).Perm l := by
  induction l with
  | nil => exact List.Perm.refl _
  | cons x xs ih =>
      have h1 : sortDesc (x :: xs) = insertDesc x (sortDesc xs) := rfl
      rw [h1]
      exact (insertDesc_perm x (sortDesc xs)).trans (List.Perm.cons x ih)

theorem insertDesc_pairwise {x : MoveProb} {l : List MoveProb}
    (h : l.Pairwise (fun a b => b.probability ≤ a.probability)) :
    (insertDesc x l).Pairwise (fun a b => b.probability ≤ a.probability) := by
  induction l with
  | nil => simp [insertDesc]
  | cons y ys ih =>
      rw [insertDesc]
      rcases List.pairwise_cons.mp h with ⟨hy, hys⟩
      split_ifs with hc
      · refine List.pairwise_cons.mpr ⟨?_, h⟩
        intro z hz
        rcases List.mem_cons.mp hz with hz' | hz'
        · rw [hz']; exact hc
        · exact le_trans (hy z hz') hc
      · refine List.pairwise_cons.mpr ⟨?_, ih hys⟩
        intro z hz
        have hz' := (insertDesc_perm x ys).mem_iff.mp hz
        rcases List.mem_cons.mp hz' with hz'' | hz''
        · rw [hz'']; exact le_of_lt (not_le.mp hc)
        · exact hy z hz''

theorem sortDesc_pairwise (l : List MoveProb) :
    (sortDesc l).Pairwise (fun a b => b.probability ≤ a.probability) := by
  induction l with
  | nil => simp [sortDesc]
  | cons x xs ih => exact insertDesc_pairwise ih

theorem filter_insertDesc (x : MoveProb) (l : List MoveProb) (q : ℚ) :
    (insertDesc x l).filter (fun m => decide (m.probability = q)) =
      if x.probability = q then
        x :: l.filter (fun m => decide (m.probability = q))
      else l.filter (fun m => decide (m.probability = q)) := by
  induction l with
  | nil => by_cases hx : x.probability = q <;> simp [insertDesc, hx]
  | cons y ys ih =>
      rw [insertDesc]
      by_cases hc : y.probability ≤ x.probability
      · rw [if_pos hc]
        by_cases hx : x.probability = q <;> simp [List.filter_cons, hx]
      · rw [if_neg hc]
        by_cases hx : x.probability = q <;> by_cases hy : y.probability = q
        · exact absurd (le_of_eq (hy.trans hx.symm)) hc
        · simp [List.filter_cons, hx, hy, ih]
        · simp [List.filter_cons, hx, hy, ih]
        · simp [List.filter_cons, hx, hy, ih]

theorem sortDesc_filter (l : List MoveProb) (q : ℚ) :
    (sortDesc l).filter (fun m => decide (m.probability = q)) =
      l.filter (fun m => decide (m.probability = q)) := by
  induction l with
  | nil => rfl
  | cons x xs ih =>
      have h1 : sortDesc (x :: xs) = insertDesc x (sortDesc xs) := rfl
      rw [h1, filter_insertDesc]
      by_cases hx : x.probability = q <;> simp [List.filter_cons, hx, ih]

theorem insertDesc_map (g : MoveProb → MoveProb)
    (hg : ∀ m, (g m).probability = m.probability) (x : MoveProb)
    (l : List MoveProb) :
    insertDesc (g x) (l.map g) = (insertDesc x l).map g := by
  induction l with
  | nil => rfl
  | cons y ys ih =>
      rw [List.map_cons, insertDesc, insertDesc, hg, hg]
      split_ifs with hc
      · rfl
      · rw [List.map_cons, ih]

theorem sortDesc_map (g : MoveProb → MoveProb)
    (hg : ∀ m, (g m).probability = m.probability) (l : List MoveProb) :
    sortDesc (l.map g) = (sortDesc l).map g := by
  induction l with
  | nil => rfl
  | cons x xs ih =>
      have h1 : sortDesc (x :: xs) = insertDesc x (sortDesc xs) := rfl
      have h2 : sortDesc (g x :: xs.map g) = insertDesc (g x) (sortDesc (xs.map g)) := rfl
      rw [List.map_cons, h2, ih, insertDesc_map g hg, h1]

/-! Helper lemmas about truncation. -/

theorem pySlice_eq_take {α : Type} (n : Int) (l : List α) :
    pySlice n l = l.take (if 0 ≤ n then n.toNat else l.length - n.natAbs) := by
  unfold pySlice
  split_ifs <;> rfl

theorem sum_map_take_le (f : MoveProb → ℚ) (l : List MoveProb) (k : Nat)
    (h : ∀ x ∈ l, 0 ≤ f x) :
    ((l.take k).map f).sum ≤ (l.map f).sum := by
  have hsplit : l = l.take k ++ l.drop k := (List.take_append_drop k l).symm
  have h2 : (l.map f).sum = ((l.take k).map f).sum + ((l.drop k).map f).sum := by
    rw [hsplit]
    rw [List.map_append, List.sum_append]
    rw [List.take_append_drop]
  have h3 : 0 ≤ ((l.drop k).map f).sum := by
    apply List.sum_nonneg
    intro x hx
    rcases List.mem_map.mp hx with ⟨y, hy, hxy⟩
    rw [← hxy]
    exact h y (List.mem_of_mem_drop hy)
  linarith

/-! Helper lemmas about the decoded move list. -/

theorem moveProbsList_probs (vocab : List (List Char)) (E : ℚ → ℚ)
    (logits : List ℚ) (legal : List (List Char)) (isBlack : Bool) :
    (moveProbsList vocab E logits legal isBlack).map (fun m => m.probability) =
      (legalIdxList vocab (mirroredLegal legal isBlack)).map
        (fun i => round4 (probOf vocab (mirroredLegal legal isBlack) E logits i)) := by
  unfold moveProbsList legalIdxList
  rw [List.map_filterMap, List.map_filterMap]
  simp only [Option.map_map]
  rfl

theorem moveProbsList_length (vocab : List (List Char)) (E : ℚ → ℚ)
    (logits : List ℚ) (legal : List (List Char)) (isBlack : Bool) :
    (moveProbsList vocab E logits legal isBlack).length =
      (legalIdxList vocab (mirroredLegal legal isBlack)).length := by
  have h := congrArg List.length (moveProbsList_probs vocab E logits legal isBlack)
  simpa using h

/-! Helper lemmas about move-string mirroring. -/

theorem mirrorRankChar_invol {c : Char} (h1 : 49 ≤ c.toNat) (h2 : c.toNat ≤ 56) :
    mirrorRankChar (mirrorRankChar c) = c := by
  have h : c.toNat = 49 ∨ c.toNat = 50 ∨ c.toNat = 51 ∨ c.toNat = 52 ∨
      c.toNat = 53 ∨ c.toNat = 54 ∨ c.toNat = 55 ∨ c.toNat = 56 := by omega
  calc mirrorRankChar (mirrorRankChar c)
      = mirrorRankChar (mirrorRankChar (Char.ofNat c.toNat)) := by
        rw [Char.ofNat_toNat]
    _ = Char.ofNat c.toNat := by
        rcases h with h | h | h | h | h | h | h | h <;> rw [h] <;> decide
    _ = c := Char.ofNat_toNat c

theorem mirrorMove_invol {l : List Char} (h : validMove l = true) :
    mirrorMove (mirrorMove l) = l := by
  match l, h with
  | c0 :: c1 :: c2 :: c3 :: rest, h =>
      simp only [validMove, Bool.and_eq_true, decide_eq_true_eq] at h
      rcases h with ⟨⟨h1a, h1b⟩, h3a, h3b⟩
      simp only [mirrorMove]
      rw [mirrorRankChar_invol h1a h1b, mirrorRankChar_invol h3a h3b]

theorem map_mirror_mirror {legal : List (List Char)}
    (h : ∀ m ∈ legal, validMove m = true) :
    (legal.map mirrorMove).map mirrorMove = legal := by
  induction legal with
  | nil => rfl
  | cons m ms ih =>
      simp only [List.map_cons]
      rw [mirrorMove_invol (h m (List.mem_cons_self m ms)),
        ih (fun x hx => h x (List.mem_cons_of_mem m hx))]

/-! Helper lemmas about ELO bucketing. -/

theorem eloToCategory_eq_ediv {elo : Int} (h1 : 1100 ≤ elo) (h2 : elo < 2000) :
    eloToCategory elo = (elo - 1100) / 100 + 1 := by
  unfold eloToCategory
  rw [if_neg (by omega), if_neg (by omega)]
  rw [Int.fdiv_eq_ediv _ (by omega)]

theorem eloToCategory_nonneg_le_ten (e : Int) :
    0 ≤ eloToCategory e ∧ eloToCategory e ≤ 10 := by
  by_cases h1 : e < 1100
  · unfold eloToCategory
    rw [if_pos h1]
    omega
  · by_cases h2 : 2000 ≤ e
    · unfold eloToCategory
      rw [if_neg h1, if_pos h2]
      omega
    · rw [eloToCategory_eq_ediv (by omega) (by omega)]
      omega

/-- C7: the Elo bucketer is a pure, monotonically non-decreasing
function from integer ratings onto the 11 categories 0..10 with
boundaries exactly 1100, 1200, ..., 2000: every rating below 1100 maps
to 0, every rating in [1100+100k, 1200+100k) maps to k+1 for k in 0..8,
every rating at or above 2000 maps to 10; in particular 1099 maps to 0,
1100 to 1, 1999 to 9 and 2000 to 10. -/
theorem c7_elo_bucketer :
    (∀ a b : Int, a ≤ b → eloToCategory a ≤ eloToCategory b) ∧
    (∀ e : Int, e < 1100 → eloToCategory e = 0) ∧
    (∀ e : Int, 2000 ≤ e → eloToCategory e = 10) ∧
    (∀ k : Int, 0 ≤ k → k ≤ 8 → ∀ e : Int,
      1100 + 100 * k ≤ e → e < 1200 + 100 * k → eloToCategory e = k + 1) ∧
    eloToCategory 1099 = 0 ∧ eloToCategory 1100 = 1 ∧
    eloToCategory 1999 = 9 ∧ eloToCategory 2000 = 10 := by
  refine ⟨?_, ?_, ?_, ?_, by decide, by decide, by decide, by decide⟩
  · intro a b hab
    by_cases hb1 : b < 1100
    · have ha1 : a < 1100 := by omega
      unfold eloToCategory
      rw [if_pos ha1, if_pos hb1]
    · by_cases ha2 : 2000 ≤ a
      · have hb2 : 2000 ≤ b := by omega
        unfold eloToCategory
        rw [if_neg (by omega : ¬a < 1100), if_pos ha2, if_neg hb1, if_pos hb2]
      · by_cases ha1 : a < 1100
        · have h0 : eloToCategory a = 0 := by
            unfold eloToCategory
            rw [if_pos ha1]
          rw [h0]
          exact (eloToCategory_nonneg_le_ten b).1
        · by_cases hb2 : 2000 ≤ b
          · have h10 : eloToCategory b = 10 := by
              unfold eloToCategory
              rw [if_neg hb1, if_pos hb2]
            rw [h10]
            exact (eloToCategory_nonneg_le_ten a).2
          · rw [eloToCategory_eq_ediv (by omega) (by omega),
              eloToCategory_eq_ediv (by omega) (by omega)]
            omega
  · intro e h
    unfold eloToCategory
    rw [if_pos h]
  · intro e h
    unfold eloToCategory
    rw [if_neg (by omega : ¬e < 1100), if_pos h]
  · intro k hk0 hk8 e h1 h2
    rw [eloToCategory_eq_ediv (by omega) (by omega)]
    omega

/-- C7 witness: the monotonicity and interior-bucket clauses of the
bucketer theorem evaluated at concrete ratings. -/
theorem c7_elo_bucketer_witness :
    eloToCategory 1500 ≤ eloToCategory 1501 ∧ eloToCategory 1234 = 2 :=
  ⟨c7_elo_bucketer.1 1500 1501 (by norm_num),
   c7_elo_bucketer.2.2.2.1 1 (by norm_num) (by norm_num) 1234 (by norm_num)
     (by norm_num)⟩

/-- C9: move-string mirroring is an involution on every four-or-six
character move string whose rank characters are digits 1..8; applying
the rank transform twice reproduces the original string, so
un-mirroring a mirrored move string yields the original. -/
theorem c9_mirror_involution (l : List Char)
    (_hlen : l.length = 4 ∨ l.length = 6) (hv : validMove l = true) :
    mirrorMove (mirrorMove l) = l :=
  mirrorMove_invol hv

/-- C9 witness: the involution evaluated on the concrete move e2e4. -/
theorem c9_mirror_involution_witness :
    mirrorMove (mirrorMove ['e', '2', 'e', '4']) = ['e', '2', 'e', '4'] :=
  c9_mirror_involution ['e', '2', 'e', '4'] (Or.inl (by decide)) (by decide)

theorem clip01_nonneg (q : ℚ) : 0 ≤ clip01 q :=
  le_min (by norm_num) (le_max_left 0 q)

theorem clip01_le_one (q : ℚ) : clip01 q ≤ 1 := min_le_left _ _

theorem mem_predict_moves {vocab : List (List Char)} {E : ℚ → ℚ}
    {logits : List ℚ} {value : ℚ} {legal : List (List Char)} {isBlack : Bool}
    {topN : Int} {mp : MoveProb}
    (h : mp ∈ (predictCore vocab E logits value legal isBlack topN).moves) :
    mp ∈ moveProbsList vocab E logits legal isBlack := by
  have h1 : (predictCore vocab E logits value legal isBlack topN).moves =
      pySlice topN (sortDesc (moveProbsList vocab E logits legal isBlack)) := rfl
  rw [h1, pySlice_eq_take] at h
  exact (sortDesc_perm _).mem_iff.mp (List.take_subset _ _ h)

theorem moveProbsList_mem_round4 {vocab : List (List Char)} {E : ℚ → ℚ}
    {logits : List ℚ} {legal : List (List Char)} {isBlack : Bool} {mp : MoveProb}
    (h : mp ∈ moveProbsList vocab E logits legal isBlack) :
    ∃ i, mp.probability =
      round4 (probOf vocab (mirroredLegal legal isBlack) E logits i) := by
  rcases List.mem_filterMap.mp h with ⟨m, _, heq⟩
  rcases Option.map_eq_some'.mp heq with ⟨idx, _, hF⟩
  exact ⟨idx, by rw [← hF]⟩

/-- C10: every per-move probability and the win probability returned by
predict is rounded to 4 decimal places, hence an integer multiple of
10^-4, and the win probability stays within [0, 1] after the rounding
and after the 1 - x reorientation applied for the second player. -/
theorem c10_rounding (vocab : List (List Char)) (E : ℚ → ℚ) (logits : List ℚ)
    (value : ℚ) (legal : List (List Char)) (isBlack : Bool) (topN : Int) :
    (∀ mp ∈ (predictCore vocab E logits value legal isBlack topN).moves,
      ∃ k : Int, mp.probability = (k : ℚ) / 10000) ∧
    (∃ k : Int,
      (predictCore vocab E logits value legal isBlack topN).win_prob =
        (k : ℚ) / 10000) ∧
    0 ≤ (predictCore vocab E logits value legal isBlack topN).win_prob ∧
    (predictCore vocab E logits value legal isBlack topN).win_prob ≤ 1 := by
  have hwin : (predictCore vocab E logits value legal isBlack topN).win_prob =
      round4 (if isBlack then 1 - clip01 (value / 2 + 1 / 2)
        else clip01 (value / 2 + 1 / 2)) := rfl
  refine ⟨?_, ?_, ?_, ?_⟩
  · intro mp hmp
    rcases moveProbsList_mem_round4 (mem_predict_moves hmp) with ⟨i, hi⟩
    exact ⟨rne (probOf vocab (mirroredLegal legal isBlack) E logits i * 10000), hi⟩
  · exact ⟨rne ((if isBlack then 1 - clip01 (value / 2 + 1 / 2)
      else clip01 (value / 2 + 1 / 2)) * 10000), hwin⟩
  · rw [hwin]
    apply round4_nonneg
    split_ifs with hb
    · have h1 := clip01_le_one (value / 2 + 1 / 2)
      linarith
    · exact clip01_nonneg _
  · rw [hwin]
    apply round4_le_one
    split_ifs with hb
    · have h1 := clip01_nonneg (value / 2 + 1 / 2)
      linarith
    · exact clip01_le_one _

theorem sum_map_round4_le (p : Nat → ℚ) (S : List Nat) :
    (S.map (fun i => round4 (p i))).sum ≤ (S.map p).sum + (S.length : ℚ) / 20000 := by
  induction S with
  | nil => simp
  | cons i S ih =>
      simp only [List.map_cons, List.sum_cons, List.length_cons]
      have h := round4_le (p i)
      push_cast
      linarith

theorem pySlice_map {α β : Type} (g : α → β) (n : Int) (l : List α) :
    pySlice n (l.map g) = (pySlice n l).map g := by
  unfold pySlice
  rw [List.length_map]
  split_ifs <;> rw [List.map_take]

/-- C1 (amended): for every legal position whose legal-move set is
nonempty after mirroring and vocabulary lookup, the probability mass
the decoder assigns to the full legal-move set (before truncation) is
within vocabSize/10^12 of 1.0 and never exceeds 1.  The softmax is the
numerically stable one (subtract the maximum masked logit, exponentiate
with E, normalize by the sum), with every index not corresponding to a
mirrored legal move replaced by the sentinel -1e9.  The hypotheses on E
are the relevant analytic facts about np.exp on float64 model outputs:
it is positive, and at arguments below -9*10^8 (which the sentinel
forces once all logits are at least -10^8) it is negligibly small
relative to E 0. -/
theorem c1_amended_softmax_mass (vocab : List (List Char)) (E : ℚ → ℚ)
    (logits : List ℚ) (legal : List (List Char)) (isBlack : Bool)
    (hpos : ∀ x, 0 < E x)
    (hsmall : ∀ x : ℚ, x ≤ -(9 * 10 ^ 8) → E x ≤ E 0 / 10 ^ 12)
    (hlog : ∀ x ∈ logits, -(10 ^ 8) ≤ x)
    (hlen : logits.length = vocab.length)
    (hnd : (mirroredLegal legal isBlack).Nodup)
    (hne : legalIdxList vocab (mirroredLegal legal isBlack) ≠ []) :
    1 - (vocab.length : ℚ) / 10 ^ 12 ≤
      legalMass vocab (mirroredLegal legal isBlack) E logits ∧
    legalMass vocab (mirroredLegal legal isBlack) E logits ≤ 1 := by
  have hv : vocab ≠ [] := by
    rcases List.exists_mem_of_ne_nil _ hne with ⟨i0, hi0⟩
    have hlt := legalIdxList_mem_lt hi0
    intro h0
    rw [h0] at hlt
    simp at hlt
  exact ⟨legalMass_ge hpos hsmall hlog hlen hnd hne, legalMass_le_one hpos hv hnd⟩

/-- Concrete two-move vocabulary used in witnesses. -/
def vocab2 : List (List Char) := [['a', '2', 'a', '3'], ['b', '2', 'b', '3']]

/-- Concrete stand-in for np.exp satisfying the analytic hypotheses:
positive, and negligible below the shifted-sentinel threshold. -/
def expW : ℚ → ℚ := fun x => if x ≤ -(9 * 10 ^ 8) then 1 / 10 ^ 13 else 1

/-- C1 witness: the amended mass bound evaluated at a concrete
one-legal-move position over a two-entry vocabulary. -/
theorem c1_amended_softmax_mass_witness :
    1 - (2 : ℚ) / 10 ^ 12 ≤
      legalMass vocab2 (mirroredLegal [['a', '2', 'a', '3']] false) expW [0, 0] ∧
    legalMass vocab2 (mirroredLegal [['a', '2', 'a', '3']] false) expW [0, 0] ≤ 1 := by
  have h := c1_amended_softmax_mass vocab2 expW [0, 0] [['a', '2', 'a', '3']] false
    (fun x => by unfold expW; split <;> norm_num)
    (fun x hx => by
      unfold expW
      rw [if_pos hx, if_neg (by norm_num : ¬(0 : ℚ) ≤ -(9 * 10 ^ 8))]
      norm_num)
    (fun x hx => by
      rcases List.mem_cons.mp hx with h1 | h1
      · rw [h1]; norm_num
      · rcases List.mem_cons.mp h1 with h2 | h2
        · rw [h2]; norm_num
        · cases h2)
    (by decide) (by decide) (by decide)
  simpa using h

/-- C1 counterexample: a legal position can have an empty legal-move
set (checkmate or stalemate, e.g. the fools-mate position
rnb1kbnr/pppp1ppp/8/4p3/6Pq/5P2/PPPPP2P/RNBQKBNR w KQkq - after
1.f3 e5 2.g4 Qh4#, where the external move generator returns no legal
moves).  There the decoder assigns total probability 0 to the
legal-move set, which is not within any floating tolerance below 1 of
1.0, so the claim fails as stated for every legal position. -/
theorem c1_counterexample :
    legalMass vocab2 (mirroredLegal [] false) (fun _ => 1) [0, 0] = 0 ∧
    ¬(|legalMass vocab2 (mirroredLegal [] false) (fun _ => 1) [0, 0] - 1| ≤
        1 / 1000) := by
  constructor
  · rfl
  · intro h
    have h0 : legalMass vocab2 (mirroredLegal [] false) (fun _ => 1) [0, 0] = 0 := rfl
    rw [h0] at h
    norm_num at h

/-- C8 (amended): the result moves are ordered by probability
descending; ties keep the original legal-move enumeration order of the
true position (the sort is stable: filtering any fixed probability
value gives the same subsequence before and after sorting); truncation
is a prefix of the sorted list, so it never reorders the remaining
moves; and the returned (4-decimal-rounded) probabilities sum to at
most 1 plus m/20000 where m is the number of surviving legal moves
(each rounding can add at most 5*10^-5, so the sum can marginally
exceed 1.0). -/
theorem c8_amended_ordering (vocab : List (List Char)) (E : ℚ → ℚ)
    (logits : List ℚ) (value : ℚ) (legal : List (List Char)) (isBlack : Bool)
    (topN : Int)
    (hpos : ∀ x, 0 < E x) (hv : vocab ≠ [])
    (hnd : (mirroredLegal legal isBlack).Nodup) :
    (predictCore vocab E logits value legal isBlack topN).moves.Pairwise
      (fun a b => b.probability ≤ a.probability) ∧
    (∀ q : ℚ,
      (sortDesc (moveProbsList vocab E logits legal isBlack)).filter
          (fun m => decide (m.probability = q)) =
        (moveProbsList vocab E logits legal isBlack).filter
          (fun m => decide (m.probability = q))) ∧
    (∃ k : Nat, (predictCore vocab E logits value legal isBlack topN).moves =
      (sortDesc (moveProbsList vocab E logits legal isBlack)).take k) ∧
    ((predictCore vocab E logits value legal isBlack topN).moves.map
        (fun m => m.probability)).sum ≤
      1 + ((moveProbsList vocab E logits legal isBlack).length : ℚ) / 20000 := by
  have hmoves : (predictCore vocab E logits value legal isBlack topN).moves =
      pySlice topN (sortDesc (moveProbsList vocab E logits legal isBlack)) := rfl
  refine ⟨?_, fun q => sortDesc_filter _ q, ⟨_, by rw [hmoves, pySlice_eq_take]⟩, ?_⟩
  · rw [hmoves, pySlice_eq_take]
    exact List.Pairwise.sublist (List.take_sublist _ _) (sortDesc_pairwise _)
  · have hnonneg : ∀ x ∈ sortDesc (moveProbsList vocab E logits legal isBlack),
        0 ≤ x.probability := by
      intro x hx
      have hx' := (sortDesc_perm _).mem_iff.mp hx
      rcases moveProbsList_mem_round4 hx' with ⟨i, hi⟩
      rw [hi]
      exact round4_nonneg (probOf_nonneg hpos hv i)
    have h1 : ((predictCore vocab E logits value legal isBlack topN).moves.map
        (fun m => m.probability)).sum ≤
        ((sortDesc (moveProbsList vocab E logits legal isBlack)).map
          (fun m => m.probability)).sum := by
      rw [hmoves, pySlice_eq_take]
      exact sum_map_take_le _ _ _ hnonneg
    have h2 : ((sortDesc (moveProbsList vocab E logits legal isBlack)).map
        (fun m => m.probability)).sum =
        ((moveProbsList vocab E logits legal isBlack).map
          (fun m => m.probability)).sum :=
      List.Perm.sum_eq ((sortDesc_perm _).map _)
    have h3 := moveProbsList_probs vocab E logits legal isBlack
    have h4 := sum_map_round4_le
      (probOf vocab (mirroredLegal legal isBlack) E logits)
      (legalIdxList vocab (mirroredLegal legal isBlack))
    have h5 : legalMass vocab (mirroredLegal legal isBlack) E logits ≤ 1 :=
      legalMass_le_one hpos hv hnd
    have h6 := moveProbsList_length vocab E logits legal isBlack
    have h7 : (((moveProbsList vocab E logits legal isBlack).length : ℚ)) =
        ((legalIdxList vocab (mirroredLegal legal isBlack)).length : ℚ) := by
      exact_mod_cast congrArg Nat.cast h6
    rw [h2, h3] at h1
    unfold legalMass at h5
    rw [h7]
    linarith

/-- Concrete one-move vocabulary and constant exponential used in
witnesses. -/
def vocab1 : List (List Char) := [['a', '2', 'a', '3']]

/-- Constant positive stand-in for np.exp used in witnesses. -/
def expOne : ℚ → ℚ := fun _ => 1

/-- C8 witness: the ordering clause of the amended theorem evaluated at
a concrete one-move position. -/
theorem c8_amended_ordering_witness :
    (predictCore vocab1 expOne [0] 0 vocab1 false 5).moves.Pairwise
      (fun a b => b.probability ≤ a.probability) :=
  (c8_amended_ordering vocab1 expOne [0] 0 vocab1 false 5
    (fun _ => one_pos) (by decide) (by decide)).1

/-- Concrete three-move vocabulary for the rounding counterexample. -/
def vocab3 : List (List Char) :=
  [['a', '2', 'a', '3'], ['b', '2', 'b', '3'], ['c', '2', 'c', '3']]

/-- Stand-in for np.exp realizing softmax outputs 0.33336, 0.33336,
0.33328 (achieved by the real exp at logits ln 33336, ln 33336,
ln 33328; float round then yields 0.3334, 0.3334, 0.3333). -/
def expC : ℚ → ℚ := fun x => if x = -1 then 33328 / 100000 else 33336 / 100000

theorem vocab3_maskedLogit0 : maskedLogit vocab3 vocab3 [0, 0, -1] 0 = 0 := by decide

theorem vocab3_maskedLogit1 : maskedLogit vocab3 vocab3 [0, 0, -1] 1 = 0 := by decide

theorem vocab3_maskedLogit2 : maskedLogit vocab3 vocab3 [0, 0, -1] 2 = -1 := by decide

theorem vocab3_maskedMax : maskedMax vocab3 vocab3 [0, 0, -1] = 0 := by decide

theorem vocab3_expSum : expSum vocab3 vocab3 expC [0, 0, -1] = 1 := by
  unfold expSum
  rw [show vocab3.length = 3 from by decide, Finset.sum_range_succ,
    Finset.sum_range_succ, Finset.sum_range_succ, Finset.sum_range_zero,
    vocab3_maskedLogit0, vocab3_maskedLogit1, vocab3_maskedLogit2, vocab3_maskedMax]
  norm_num [expC]

theorem vocab3_prob0 : probOf vocab3 vocab3 expC [0, 0, -1] 0 = 33336 / 100000 := by
  unfold probOf
  rw [vocab3_expSum, vocab3_maskedLogit0, vocab3_maskedMax]
  norm_num [expC]

theorem vocab3_prob1 : probOf vocab3 vocab3 expC [0, 0, -1] 1 = 33336 / 100000 := by
  unfold probOf
  rw [vocab3_expSum, vocab3_maskedLogit1, vocab3_maskedMax]
  norm_num [expC]

theorem vocab3_prob2 : probOf vocab3 vocab3 expC [0, 0, -1] 2 = 33328 / 100000 := by
  unfold probOf
  rw [vocab3_expSum, vocab3_maskedLogit2, vocab3_maskedMax]
  norm_num [expC]

theorem round4_33336 : round4 (33336 / 100000) = 3334 / 10000 := by
  norm_num [round4, rne]

theorem round4_33328 : round4 (33328 / 100000) = 3333 / 10000 := by
  norm_num [round4, rne]

theorem vocab3_lookup0 : lookupIdx vocab3 ['a', '2', 'a', '3'] = some 0 := by decide

theorem vocab3_lookup1 : lookupIdx vocab3 ['b', '2', 'b', '3'] = some 1 := by decide

theorem vocab3_lookup2 : lookupIdx vocab3 ['c', '2', 'c', '3'] = some 2 := by decide

theorem vocab3_moveProbs : moveProbsList vocab3 expC [0, 0, -1] vocab3 false =
    [⟨['a', '2', 'a', '3'], 3334 / 10000⟩, ⟨['b', '2', 'b', '3'], 3334 / 10000⟩,
     ⟨['c', '2', 'c', '3'], 3333 / 10000⟩] := by
  show (mirroredLegal vocab3 false).filterMap _ = _
  rw [show mirroredLegal vocab3 false = vocab3 from rfl]
  show List.filterMap _
    [['a', '2', 'a', '3'], ['b', '2', 'b', '3'], ['c', '2', 'c', '3']] = _
  simp only [List.filterMap_cons, List.filterMap_nil, vocab3_lookup0, vocab3_lookup1,
    vocab3_lookup2, Option.map_some']
  simp only [Bool.false_eq_true, if_false, vocab3_prob0, vocab3_prob1, vocab3_prob2,
    round4_33336, round4_33328]

theorem vocab3_sorted : sortDesc
    [(⟨['a', '2', 'a', '3'], 3334 / 10000⟩ : MoveProb),
     ⟨['b', '2', 'b', '3'], 3334 / 10000⟩, ⟨['c', '2', 'c', '3'], 3333 / 10000⟩] =
    [⟨['a', '2', 'a', '3'], 3334 / 10000⟩, ⟨['b', '2', 'b', '3'], 3334 / 10000⟩,
     ⟨['c', '2', 'c', '3'], 3333 / 10000⟩] := by
  norm_num [sortDesc, insertDesc]

/-- C8 counterexample: a full run of the decoder on a three-move
position whose softmax probabilities are 0.33336, 0.33336, 0.33328
(total exactly 1) returns rounded probabilities 0.3334, 0.3334, 0.3333
whose sum is 1.0001 > 1, refuting the claim that the returned
probabilities always sum to at most 1.0. -/
theorem c8_counterexample :
    ((predictCore vocab3 expC [0, 0, -1] 0 vocab3 false 5).moves.map
        (fun m => m.probability)).sum = 10001 / 10000 ∧
    ¬(((predictCore vocab3 expC [0, 0, -1] 0 vocab3 false 5).moves.map
        (fun m => m.probability)).sum ≤ 1) := by
  have hmoves : (predictCore vocab3 expC [0, 0, -1] 0 vocab3 false 5).moves =
      [⟨['a', '2', 'a', '3'], 3334 / 10000⟩, ⟨['b', '2', 'b', '3'], 3334 / 10000⟩,
       ⟨['c', '2', 'c', '3'], 3333 / 10000⟩] := by
    show pySlice 5 (sortDesc (moveProbsList vocab3 expC [0, 0, -1] vocab3 false)) = _
    rw [vocab3_moveProbs, vocab3_sorted]
    rfl
  rw [hmoves]
  norm_num

/-- C2: orientation symmetry.  For a position P with the first player
to move and its vertically mirrored counterpart P' with the second
player to move, the engine re-mirrors P' back to P before encoding, so
the opaque model runtime receives the identical tensor and elo inputs
and returns the same logits and value for both calls; the legal moves
of P' are the mirrored legal moves of P (a fact of the external move
generator).  Under this modelling the two win probabilities sum to 1
within 1/10000 (the two 4-decimal roundings), and the returned move
lists correspond pointwise under the rank-mirroring transform. -/
theorem c2_orientation_symmetry (vocab : List (List Char)) (E : ℚ → ℚ)
    (logits : List ℚ) (value : ℚ) (legal : List (List Char)) (topN : Int)
    (hvm : ∀ m ∈ legal, validMove m = true) :
    |(predictCore vocab E logits value legal false topN).win_prob +
        (predictCore vocab E logits value (legal.map mirrorMove) true topN).win_prob -
        1| ≤ 1 / 10000 ∧
    (predictCore vocab E logits value (legal.map mirrorMove) true topN).moves =
      (predictCore vocab E logits value legal false topN).moves.map
        (fun mp => { move := mirrorMove mp.move, probability := mp.probability }) := by
  have key1 : mirroredLegal (legal.map mirrorMove) true = legal :=
    map_mirror_mirror hvm
  have key0 : mirroredLegal legal false = legal := rfl
  constructor
  · have hw1 : (predictCore vocab E logits value legal false topN).win_prob =
        round4 (clip01 (value / 2 + 1 / 2)) := rfl
    have hw2 : (predictCore vocab E logits value (legal.map mirrorMove) true
        topN).win_prob = round4 (1 - clip01 (value / 2 + 1 / 2)) := rfl
    rw [hw1, hw2]
    have h1 := round4_ge (clip01 (value / 2 + 1 / 2))
    have h2 := round4_le (clip01 (value / 2 + 1 / 2))
    have h3 := round4_ge (1 - clip01 (value / 2 + 1 / 2))
    have h4 := round4_le (1 - clip01 (value / 2 + 1 / 2))
    rw [abs_le]
    constructor <;> linarith
  · have key2 : moveProbsList vocab E logits (legal.map mirrorMove) true =
        (moveProbsList vocab E logits legal false).map
          (fun mp => { move := mirrorMove mp.move, probability := mp.probability }) := by
      unfold moveProbsList
      rw [key1, key0, List.map_filterMap]
      simp only [Option.map_map]
      rfl
    have hm1 : (predictCore vocab E logits value (legal.map mirrorMove) true
        topN).moves = pySlice topN (sortDesc (moveProbsList vocab E logits
          (legal.map mirrorMove) true)) := rfl
    have hm2 : (predictCore vocab E logits value legal false topN).moves =
        pySlice topN (sortDesc (moveProbsList vocab E logits legal false)) := rfl
    rw [hm1, hm2, key2,
      sortDesc_map (fun mp => ⟨mirrorMove mp.move, mp.probability⟩) (fun _ => rfl),
      pySlice_map]

/-- C2 witness: the symmetry theorem evaluated at a concrete one-move
position. -/
theorem c2_orientation_symmetry_witness :
    |(predictCore vocab1 expOne [0] 0 vocab1 false 5).win_prob +
        (predictCore vocab1 expOne [0] 0 (vocab1.map mirrorMove) true 5).win_prob -
        1| ≤ 1 / 10000 ∧
    (predictCore vocab1 expOne [0] 0 (vocab1.map mirrorMove) true 5).moves =
      (predictCore vocab1 expOne [0] 0 vocab1 false 5).moves.map
        (fun mp => { move := mirrorMove mp.move, probability := mp.probability }) :=
  c2_orientation_symmetry vocab1 expOne [0] 0 vocab1 5 (by decide)

/-- C10 witness: the win-probability range clauses of the rounding
theorem evaluated at a concrete one-move position. -/
theorem c10_rounding_witness :
    0 ≤ (predictCore vocab1 expOne [0] 0 vocab1 false 5).win_prob ∧
    (predictCore vocab1 expOne [0] 0 vocab1 false 5).win_prob ≤ 1 :=
  ⟨(c10_rounding vocab1 expOne [0] 0 vocab1 false 5).2.2.1,
   (c10_rounding vocab1 expOne [0] 0 vocab1 false 5).2.2.2⟩

/-- Concrete engine stub used in dispatcher witnesses: always succeeds
with an empty result. -/
def engineStub : EngineFn := fun _ _ _ _ => .ok ⟨[], 1 / 2⟩

/-- Concrete engine stub that raises, used for the failure-conversion
scenarios. -/
def engineFail : EngineFn := fun _ _ _ _ => .error "boom"

/-- Concrete auth stub (never consulted by the analyze path). -/
def authStub : AuthFn := fun _ _ => .error "unavailable"

/-- Session with a non-free plan tag. -/
def paidSession : Session := ⟨some "u@example.org", some "pro"⟩

/-- Session whose plan field is absent (dict.get defaults it to free). -/
def freeSession : Session := ⟨some "u@example.org", none⟩

/-- Analyze message with a fen and a correlation id but no top_n. -/
def analyzeFull : AnalyzeMsg := ⟨some "r2", some "startpos", none, none, none⟩

/-- Analyze message with a correlation id but no fen. -/
def analyzeNoFen : AnalyzeMsg := ⟨some "r1", none, none, none, none⟩

/-- C3 (amended): for every parsed analyze message, no session yields
an auth_required reply echoing the requestId with no engine
invocation; a session whose plan tag is the literal free (or absent)
yields upgrade_required with no engine invocation; any other plan tag
with a fen present invokes the engine pipeline and, when it succeeds,
produces an analysis_result reply. -/
theorem c3_amended_gating (authFn : AuthFn) (engine : EngineFn) (a : AnalyzeMsg) :
    (process none authFn engine (.analyze a) =
      .ok (.authRequired a.requestId, false)) ∧
    (∀ s : Session, s.plan.getD "free" = "free" →
      process (some s) authFn engine (.analyze a) =
        .ok (.upgradeRequired a.requestId, false)) ∧
    (∀ (s : Session) (f : String) (res : PredictResult),
      s.plan.getD "free" ≠ "free" → a.fen = some f → f ≠ "" →
      engine f (a.elo_self.getD 1500) (a.elo_oppo.getD 1500) (a.top_n.getD 5) =
        .ok res →
      process (some s) authFn engine (.analyze a) =
        .ok (.analysisResult (a.requestId.getD "?") res f, true)) := by
  refine ⟨rfl, ?_, ?_⟩
  · intro s hs
    simp [process, hs]
  · intro s f res hs hf hfe heng
    simp [process, hs, handleAnalyze, hf, hfe, heng]

/-- C3 counterexample: with a paid session, an analyze message without
a fen produces a validation error and no engine invocation, not an
analysis_result, so the clause that any non-free plan always leads to
an engine invocation and an analysis_result reply fails as stated. -/
theorem c3_counterexample :
    process (some paidSession) authStub engineStub (.analyze analyzeNoFen) =
      .ok (.errorReply "Missing 'fen' field" none, false) := by
  simp [process, paidSession, handleAnalyze, analyzeNoFen]

/-- C3 witness: the three gating clauses evaluated at concrete
messages and sessions. -/
theorem c3_amended_gating_witness :
    process none authStub engineStub (.analyze analyzeFull) =
      .ok (.authRequired (some "r2"), false) ∧
    process (some freeSession) authStub engineStub (.analyze analyzeFull) =
      .ok (.upgradeRequired (some "r2"), false) ∧
    process (some paidSession) authStub engineStub (.analyze analyzeFull) =
      .ok (.analysisResult "r2" ⟨[], 1 / 2⟩ "startpos", true) :=
  ⟨(c3_amended_gating authStub engineStub analyzeFull).1,
   (c3_amended_gating authStub engineStub analyzeFull).2.1 freeSession rfl,
   (c3_amended_gating authStub engineStub analyzeFull).2.2 paidSession "startpos"
     ⟨[], 1 / 2⟩ (by simp [paidSession]) rfl (by simp) rfl⟩

/-- C4 (amended): a request without a top_n field behaves exactly as
one with top_n = 5 (the dict.get default); for nonnegative top_n the
returned list has min(top_n, surviving moves) entries; for negative
top_n Python slice semantics drop the last |top_n| moves instead of
applying the default. -/
theorem c4_amended_truncation :
    (∀ (engine : EngineFn) (a : AnalyzeMsg), a.top_n = none →
      handleAnalyze engine a = handleAnalyze engine { a with top_n := some 5 }) ∧
    (∀ (vocab : List (List Char)) (E : ℚ → ℚ) (logits : List ℚ) (value : ℚ)
      (legal : List (List Char)) (isBlack : Bool) (topN : Int), 0 ≤ topN →
      (predictCore vocab E logits value legal isBlack topN).moves.length =
        min topN.toNat (moveProbsList vocab E logits legal isBlack).length) ∧
    (∀ (vocab : List (List Char)) (E : ℚ → ℚ) (logits : List ℚ) (value : ℚ)
      (legal : List (List Char)) (isBlack : Bool) (topN : Int), topN < 0 →
      (predictCore vocab E logits value legal isBlack topN).moves.length =
        (moveProbsList vocab E logits legal isBlack).length - topN.natAbs) := by
  refine ⟨?_, ?_, ?_⟩
  · intro engine a h
    unfold handleAnalyze
    rw [h]
    simp
  · intro vocab E logits value legal isBlack topN h
    have hm : (predictCore vocab E logits value legal isBlack topN).moves =
        pySlice topN (sortDesc (moveProbsList vocab E logits legal isBlack)) := rfl
    rw [hm, pySlice_eq_take, if_pos h, List.length_take,
      (sortDesc_perm _).length_eq]
  · intro vocab E logits value legal isBlack topN h
    have hm : (predictCore vocab E logits value legal isBlack topN).moves =
        pySlice topN (sortDesc (moveProbsList vocab E logits legal isBlack)) := rfl
    rw [hm, pySlice_eq_take, if_neg (not_le.mpr h), List.length_take,
      (sortDesc_perm _).length_eq]
    omega

/-- C4 counterexample: with one surviving legal move, top_n = 0 returns
the empty move list, not a list truncated to the default count 5
(which would keep the single move, as the top_n = 5 run shows). -/
theorem c4_counterexample :
    (predictCore vocab1 expOne [0] 0 vocab1 false 0).moves = [] ∧
    (predictCore vocab1 expOne [0] 0 vocab1 false 5).moves.length = 1 := by
  constructor
  · rfl
  · rfl

/-- C4 witness: the three truncation clauses evaluated concretely. -/
theorem c4_amended_truncation_witness :
    handleAnalyze engineStub analyzeFull =
      handleAnalyze engineStub { analyzeFull with top_n := some 5 } ∧
    (predictCore vocab1 expOne [0] 0 vocab1 false 3).moves.length =
      min (Int.toNat 3) (moveProbsList vocab1 expOne [0] vocab1 false).length ∧
    (predictCore vocab1 expOne [0] 0 vocab1 false (-1)).moves.length =
      (moveProbsList vocab1 expOne [0] vocab1 false).length - Int.natAbs (-1) :=
  ⟨c4_amended_truncation.1 engineStub analyzeFull rfl,
   c4_amended_truncation.2.1 vocab1 expOne [0] 0 vocab1 false 3 (by norm_num),
   c4_amended_truncation.2.2 vocab1 expOne [0] 0 vocab1 false (-1) (by norm_num)⟩

/-- C5 (amended): an analyze message whose fen field is missing (or an
empty string, which Python truthiness treats the same) yields the
typed validation-error reply with message Missing fen field; the
correlation id is not echoed in this reply (its requestId field is
absent), and no engine invocation is performed.  The check happens
after the plan gate, so it is observable only for non-free sessions. -/
theorem c5_amended_validation (authFn : AuthFn) (engine : EngineFn)
    (a : AnalyzeMsg) (s : Session)
    (hplan : s.plan.getD "free" ≠ "free")
    (hfen : a.fen = none ∨ a.fen = some "") :
    process (some s) authFn engine (.analyze a) =
      .ok (.errorReply "Missing 'fen' field" none, false) := by
  rcases hfen with h | h <;> simp [process, hplan, handleAnalyze, h]

/-- C5 counterexample: a fen-less analyze request carrying correlation
id abc is answered by the validation error without any requestId
field, so the claim that the correlation id is echoed when present
fails. -/
theorem c5_counterexample :
    process (some paidSession) authStub engineStub
        (.analyze ⟨some "abc", none, none, none, none⟩) =
      .ok (.errorReply "Missing 'fen' field" none, false) ∧
    Reply.errorReply "Missing 'fen' field" none ≠
      Reply.errorReply "Missing 'fen' field" (some (some "abc")) := by
  constructor
  · simp [process, paidSession, handleAnalyze]
  · intro h
    injection h with h1 h2
    cases h2

/-- C5 witness: the amended validation-error clause evaluated at a
concrete fen-less message and paid session. -/
theorem c5_amended_validation_witness :
    process (some paidSession) authStub engineStub (.analyze analyzeNoFen) =
      .ok (.errorReply "Missing 'fen' field" none, false) :=
  c5_amended_validation authStub engineStub analyzeNoFen paidSession
    (by simp [paidSession]) (Or.inl rfl)

/-- C6: evaluation at the failing input.  A frame whose text parses to
a JSON value that is not an object (here the number 42) makes
msg.get raise AttributeError inside _process; the except handler then
calls msg.get itself and raises again, so no error reply is sent and
the connection handler terminates: the replies list for
[42, ping-message] is empty and the subsequent ping is never
processed.  The second and third conjuncts show the behaviour the
claim correctly describes for object frames: the loop continues after
an error reply, and a raised engine failure is converted into an
error reply carrying the description and the echoed correlation id. -/
theorem c6_nondict_terminates_loop :
    handleClient none authStub engineStub [RawMsg.jnondict, RawMsg.jdict Msg.ping] =
      [] ∧
    handleClient none authStub engineStub [RawMsg.jdict Msg.ping] = [Reply.pong] ∧
    handleClient (some paidSession) authStub engineFail
        [RawMsg.jdict (Msg.analyze analyzeFull), RawMsg.jdict Msg.ping] =
      [Reply.errorReply "boom" (some (some "r2")), Reply.pong] := by
  refine ⟨rfl, rfl, ?_⟩
  simp [handleClient, process, paidSession, handleAnalyze, analyzeFull,
    engineFail, Msg.requestIdField]

end Maia
